import Mathlib

/-!
Verification of the Prism Sort glitch engine (prismsort.py) against its
natural-language specification.

The Python source is shallowly embedded below:
* pure list manipulation (slicing, `sorted`, `reversed`) becomes Lean list
  functions; Python `sorted` on 3-tuples is the unique sorted permutation
  under the lexicographic order, modelled by insertion sort;
* the Pillow image is a `Canvas` structure (width, height, pixel function);
  `getpixel`/`putpixel` return `Option` values, `none` modelling the
  `IndexError` raised on out-of-bounds coordinates;
* every call to the random library (`random()`, `randrange`) becomes an
  explicit parameter: rational draws in `[0,1)` for `random()`, integer
  draws for `randrange`; `probability(p)` is the source's `random() < p`.
  Float literals 0.5 and 0.75 are exact; 0.95 and 0.1 are idealised by the
  rationals 95/100 and 1/10 they denote in the source text;
* the `while` tiling loops of `glitch` become a fuel-based recursion
  (`tilePositions`); the loop condition `pos + dim * 2/3 <= maxDim * 2`
  (exact real arithmetic on machine-size ints) is the integer condition
  `3 * pos + 2 * dim <= 6 * maxDim`, and the stride `int(dim * 2/3)` is
  floor division `dim * 2 / 3`.
-/

namespace PrismSort

/-- A pixel is the (R, G, B) tuple returned by `Image.getpixel`. -/
abbrev Pixel := ℕ × ℕ × ℕ

/-- Source `probability(p)`: `True if random() < p else False`, with the
`random()` draw `r` passed explicitly. -/
def probability (p r : ℚ) : Bool := decide (r < p)

/-- The probability thresholds of the source, written with `mkRat` so that
they reduce in the kernel; each equals the literal it stands for. -/
lemma mkRat_1_2 : (mkRat 1 2 : ℚ) = 1/2 := by norm_num [Rat.mkRat_eq_div]

lemma mkRat_95_100 : (mkRat 95 100 : ℚ) = 95/100 := by norm_num [Rat.mkRat_eq_div]

lemma mkRat_75_100 : (mkRat 75 100 : ℚ) = 75/100 := by norm_num [Rat.mkRat_eq_div]

lemma mkRat_1_10 : (mkRat 1 10 : ℚ) = 1/10 := by norm_num [Rat.mkRat_eq_div]

/-- Python's comparison on `(R, G, B)` tuples: lexicographic. -/
def lexLe (p q : Pixel) : Prop :=
  p.1 < q.1 ∨ (p.1 = q.1 ∧ (p.2.1 < q.2.1 ∨ (p.2.1 = q.2.1 ∧ p.2.2 ≤ q.2.2)))

instance : DecidableRel lexLe := fun p q => by unfold lexLe; exact inferInstance

instance : IsTotal Pixel lexLe := ⟨fun p q => by unfold lexLe; omega⟩

instance : IsTrans Pixel lexLe := ⟨fun a b c h1 h2 => by unfold lexLe at *; omega⟩

/-- Python `sorted` on a list of pixel tuples.  Since `lexLe` is a total
antisymmetric order, the sorted permutation is unique, so insertion sort
models Python's (stable) sort exactly. -/
def sortLex (l : List Pixel) : List Pixel := List.insertionSort lexLe l

/-- Python slice `ls[a:b]` (with the usual clamping). -/
def slice (l : List Pixel) (a b : ℕ) : List Pixel := (l.take b).drop a

/-- The four replacement branches of `partialSort` (source lines 173-182).
`r1` is the draw of `probability(0.5)`, `r2` the draw of the inner
`probability(0.95)` of whichever branch runs. -/
def pSortBody (a b : ℕ) (r1 r2 : ℚ) (ls : List Pixel) : List Pixel :=
  if probability (mkRat 1 2) r1 then
    if probability (mkRat 95 100) r2 then
      ls.take a ++ sortLex (slice ls a b) ++ ls.drop b  -- middle
    else
      sortLex (ls.take b) ++ ls.drop b  -- beginning
  else
    if probability (mkRat 95 100) r2 then
      ls.take a ++ (sortLex (slice ls a b)).reverse ++ ls.drop b  -- middle
    else
      ls.take a ++ (sortLex (ls.drop a)).reverse  -- end

/-- Source `partialSort(numList)` (lines 162-183).  `a` is the draw of
`randrange(len(ls) - 1)` and `b` of `randrange(a + 1, len(ls))`; both draws
are taken before any branch.  When the list has fewer than two elements,
`randrange(len(ls) - 1)` raises `ValueError`, modelled by `none`. -/
def partialSort (a b : ℕ) (r1 r2 : ℚ) (numList : List Pixel) : Option (List Pixel) :=
  if numList.length < 2 then none
  else some (pSortBody a b r1 r2 numList)

/-- The `try: line = partialSort(line) except ValueError: pass` step of
`pixSort` (source lines 236-239): on error the line is kept unchanged. -/
def sortOrKeep (a b : ℕ) (r1 r2 : ℚ) (line : List Pixel) : List Pixel :=
  (partialSort a b r1 r2 line).getD line

/-- The working raster: a Pillow RGB image of a fixed size with a pixel
value at every coordinate pair.  The first coordinate runs over
`[0, width)`, the second over `[0, height)`, as in Pillow's `(x, y)`
addressing. -/
structure Canvas where
  width : ℕ
  height : ℕ
  pix : ℕ → ℕ → Pixel

/-- `image.getpixel((xc, yc))`: `none` models the `IndexError` raised on
out-of-bounds coordinates (the script only ever uses non-negative ones). -/
def getpixel (im : Canvas) (xc yc : ℕ) : Option Pixel :=
  if xc < im.width ∧ yc < im.height then some (im.pix xc yc) else none

/-- The in-place pixel update performed by a successful `putpixel`. -/
def setPix (im : Canvas) (xc yc : ℕ) (c : Pixel) : Canvas :=
  { im with pix := fun x y => if x = xc ∧ y = yc then c else im.pix x y }

/-- `image.putpixel((xc, yc), c)`: `none` models the `IndexError` raised on
out-of-bounds coordinates. -/
def putpixel (im : Canvas) (xc yc : ℕ) (c : Pixel) : Option Canvas :=
  if xc < im.width ∧ yc < im.height then some (setPix im xc yc c) else none

/-- The read loop of `pixSort` (source lines 227-232), from column `x` with
`count` columns left: append pixels until the range ends or a read raises
`IndexError`, which `break`s (truncating the line). -/
def readLineAux (im : Canvas) (y : ℕ) : ℕ → ℕ → List Pixel
  | _, 0 => []
  | x, count + 1 =>
    match getpixel im y x with
    | some c => c :: readLineAux im y (x + 1) count
    | none => []

/-- `line = [image.getpixel((y, x)) for x in range(startW, endW)]` with the
`break`-on-`IndexError` semantics of the source. -/
def readLine (im : Canvas) (y startW endW : ℕ) : List Pixel :=
  readLineAux im y startW (endW - startW)

/-- The per-pixel row offset of the write-back loop (source lines 253-255):
`randrange(1, 3) if probability(0.1) and DITHER else 1`.  `t` is the
`probability(0.1)` draw and `delta` the `randrange(1, 3)` draw (in {1, 2}). -/
def writeOffset (dither : Bool) (t : ℚ) (delta : ℕ) : ℕ :=
  if probability (mkRat 1 10) t && dither then delta else 1

/-- The write-back loop of `pixSort` (source lines 251-259) from index `x`:
`putpixel` each pixel at `(y + offset, startW + x)`; an `IndexError`
`break`s out, abandoning the rest of the line. -/
def writeBackAux (y startW : ℕ) (offs : ℕ → ℕ) : Canvas → ℕ → List Pixel → Canvas
  | im, _, [] => im
  | im, x, c :: rest =>
    match putpixel im (y + offs x) (startW + x) c with
    | some im2 => writeBackAux y startW offs im2 (x + 1) rest
    | none => im

/-- Write the processed line back into the canvas (step 6 of the engine). -/
def writeBack (im : Canvas) (y startW : ℕ) (offs : ℕ → ℕ) (line : List Pixel) : Canvas :=
  writeBackAux y startW offs im 0 line

/-- The channel-restore loop of `pixSort` (source lines 242-249): for each
index, take channel `colour` from `originalLine` and the other two channels
from `line`.  In `pixSort` the two lists always have equal length
(`originalLine` is a copy taken before the sort, and the sorter preserves
length). -/
def channelRestore (colour : ℕ) (originalLine line : List Pixel) : List Pixel :=
  (List.range line.length).map fun px =>
    ((if colour = 0 then (originalLine.getD px (0, 0, 0)).1
      else (line.getD px (0, 0, 0)).1),
     (if colour = 1 then (originalLine.getD px (0, 0, 0)).2.1
      else (line.getD px (0, 0, 0)).2.1),
     (if colour = 2 then (originalLine.getD px (0, 0, 0)).2.2
      else (line.getD px (0, 0, 0)).2.2))

/-- The random draws consumed while processing one line of `pixSort`:
`gate` for `probability(p)`, `a`/`b`/`r1`/`r2` for `partialSort`,
`restoreGate` for `probability(p * 0.75)`, `colour` for `randrange(3)`, and
per-pixel `ditherGate x` for `probability(0.1)` and `delta x` for
`randrange(1, 3)`. -/
structure RowDraws where
  gate : ℚ
  a : ℕ
  b : ℕ
  r1 : ℚ
  r2 : ℚ
  restoreGate : ℚ
  colour : ℕ
  ditherGate : ℕ → ℚ
  delta : ℕ → ℕ

/-- One iteration of the `for y in range(startH, endH)` loop of `pixSort`
(source lines 223-259): gate on `probability(p)`, read the line, partially
sort it (keeping it on `ValueError`), optionally restore one channel from
the original line, and write the result back. -/
def processRow (d : RowDraws) (dither : Bool) (p : ℚ) (im : Canvas)
    (y startW endW : ℕ) : Canvas :=
  if probability p d.gate then
    let line := readLine im y startW endW
    let originalLine := line
    let sorted := sortOrKeep d.a d.b d.r1 d.r2 line
    let patched :=
      if probability (p * mkRat 75 100) d.restoreGate then
        channelRestore d.colour originalLine sorted
      else sorted
    writeBack im y startW
      (fun x => writeOffset dither (d.ditherGate x) (d.delta x)) patched
  else im

/-- Source `pixSort(image, startW, startH, endW, endH, p)` (lines 209-260),
with the row draws supplied per `y`.  The `progress` call is console output
and is not modelled. -/
def pixSort (d : ℕ → RowDraws) (dither : Bool) (image : Canvas)
    (startW startH endW endH : ℕ) (p : ℚ) : Canvas :=
  (List.range' startH (endH - startH)).foldl
    (fun acc y => processRow (d y) dither p acc y startW endW) image

/-- Block advance of the tiling loops (source lines 314-315):
`int(dim * 2/3) if blocks > 1 else dim`. -/
def stride (blocks dB : ℕ) : ℕ := if 1 < blocks then dB * 2 / 3 else dB

/-- Loop condition of the tiling loops (source lines 296-302):
`pos + dim * 2/3 <= maxDim * 2`, written exactly over the integers as
`3 * pos + 2 * dim <= 6 * maxDim`. -/
def tileCond (pos dB M : ℕ) : Bool := decide (3 * pos + 2 * dB ≤ 6 * M)

/-- The positions visited by one tiling `while` loop, starting at `pos`,
with enough `fuel`; the real loop has no fuel, so a zero stride makes it
run forever (see the termination theorem below). -/
def tilePositions (s dB M : ℕ) : ℕ → ℕ → List ℕ
  | 0, _ => []
  | fuel + 1, pos =>
    if tileCond pos dB M then pos :: tilePositions s dB M fuel (pos + s) else []

/-- The `currentHeight` values of the outer tiling loop of `glitch`
(`M = max W H` is the larger original dimension; fuel `2 * M + 1` is enough
whenever the stride is positive). -/
def rowStarts (blocks W H : ℕ) : List ℕ :=
  tilePositions (stride blocks (H / blocks)) (H / blocks) (max W H) (2 * max W H + 1) 0

/-- The `currentWidth` values of the inner tiling loop of `glitch`. -/
def colStarts (blocks W H : ℕ) : List ℕ :=
  tilePositions (stride blocks (W / blocks)) (W / blocks) (max W H) (2 * max W H + 1) 0

/-- Membership of the point `(r, c)` in the union of the generated block
rectangles `[currentHeight, currentHeight + hBlock) x
[currentWidth, currentWidth + wBlock)`. -/
def coveredBy (blocks W H r c : ℕ) : Prop :=
  ∃ ch ∈ rowStarts blocks W H, ∃ cw ∈ colStarts blocks W H,
    ch ≤ r ∧ r < ch + H / blocks ∧ cw ≤ c ∧ c < cw + W / blocks

instance (blocks W H r c : ℕ) : Decidable (coveredBy blocks W H r c) := by
  unfold coveredBy; exact List.decidableBEx _ _

/-- Termination of one tiling `while` loop: the position sequence
`0, s, 2s, ...` eventually falsifies the loop condition. -/
def loopTerminates (s dB M : ℕ) : Prop := ∃ k, tileCond (k * s) dB M = false

/-- Border width of `ImageOps.expand` (source lines 285-289):
`wBlock if wBlock >= hBlock else hBlock` with `wBlock = int(W/blocks)`,
`hBlock = int(H/blocks)`. -/
def borderOf (W H blocks : ℕ) : ℕ := max (W / blocks) (H / blocks)

/-- `ImageOps.expand(image, border=b, fill=0)`: pad with a black border of
width `b` on all sides. -/
def expand (im : Canvas) (b : ℕ) : Canvas :=
  { width := im.width + 2 * b
    height := im.height + 2 * b
    pix := fun x y =>
      if b ≤ x ∧ x < b + im.width ∧ b ≤ y ∧ y < b + im.height then
        im.pix (x - b) (y - b)
      else (0, 0, 0) }

/-- `image.crop(box=(l, t, r, b))`: keep the rectangle `[l, r) x [t, b)`. -/
def crop (im : Canvas) (l t r b : ℕ) : Canvas :=
  { width := r - l
    height := b - t
    pix := fun x y => im.pix (l + x) (t + y) }

/-- Per-block corruption probability of `glitch` (source lines 311-313):
`1 - (blocks**2 / (blocks + 1)**2) ** k` for the drawn exponent `k`. -/
def glitchP (blocks : ℤ) (k : ℤ) : ℚ :=
  1 - (((blocks : ℚ) ^ 2) / (((blocks : ℚ) + 1) ^ 2)) ^ k

/-- Draw range of the exponent `k` (source lines 312-313):
`randrange(blocks - 4 + INTENSITY, blocks - 1 + INTENSITY)`, i.e. the
integer interval with inclusive lower and exclusive upper bound. -/
def kRange (blocks intensity : ℤ) : Finset ℤ :=
  Finset.Ico (blocks - 4 + intensity) (blocks - 1 + intensity)

/-- The `glitch` pass for rotation angle 0 (source lines 263-327): pad with
a black border of width `max(wBlock, hBlock)`, then run the nested tiling
loops, calling `pixSort(image, currentHeight, currentWidth,
currentHeight + hBlock, currentWidth + wBlock, p)` per block with
`p = glitchP blocks k` for the block's drawn exponent `ks ch cw`.  The
rotation branches do not run at angle 0. -/
def glitch0 (ds : ℕ → ℕ → ℕ → RowDraws) (ks : ℕ → ℕ → ℤ) (dither : Bool)
    (blocks W H : ℕ) (im : Canvas) : Canvas :=
  (rowStarts blocks W H).foldl
    (fun acc ch =>
      (colStarts blocks W H).foldl
        (fun acc2 cw =>
          pixSort (ds ch cw) dither acc2 ch cw (ch + H / blocks) (cw + W / blocks)
            (glitchP (blocks : ℤ) (ks ch cw)))
        acc)
    (expand im (borderOf W H blocks))

/-- The crop of `main` (source lines 343-366) for rotation angle 0 and
fuzzy edges disabled: the fuzzy term is 0, so the box is
`((imW - W)/2, (imH - H)/2, W + (imW - W)/2, H + (imH - H)/2)` (the
halvings are exact because the padded size differs from the original by an
even amount, so `int()` of the float quotient is integer division). -/
def mainCrop (im : Canvas) (W H : ℕ) : Canvas :=
  crop im ((im.width - W) / 2) ((im.height - H) / 2)
    (W + (im.width - W) / 2) (H + (im.height - H) / 2)

/-! ## Helper lemmas -/

lemma sortLex_sorted (m : List Pixel) : List.Sorted lexLe (sortLex m) :=
  List.sorted_insertionSort lexLe m

lemma sortLex_perm (m : List Pixel) : List.Perm (sortLex m) m :=
  List.perm_insertionSort lexLe m

lemma sortLex_length (m : List Pixel) : (sortLex m).length = m.length :=
  (sortLex_perm m).length_eq

lemma slice_length (l : List Pixel) (a b : ℕ) (hb : b ≤ l.length) :
    (slice l a b).length = b - a := by
  simp only [slice, List.length_drop, List.length_take]
  omega

/-- Replacing the slice `[a, b)` of `l` by a block `mid` of the right length
keeps the prefix before `a` and the suffix from `b`, puts `mid` at `[a, b)`,
and preserves the total length. -/
lemma replaceMid_spec (l mid : List Pixel) (a b : ℕ) (hab : a ≤ b)
    (hb : b ≤ l.length) (hm : mid.length = b - a) :
    (l.take a ++ mid ++ l.drop b).take a = l.take a ∧
    (l.take a ++ mid ++ l.drop b).drop b = l.drop b ∧
    slice (l.take a ++ mid ++ l.drop b) a b = mid ∧
    (l.take a ++ mid ++ l.drop b).length = l.length := by
  have hta : (l.take a).length = a := by
    simp only [List.length_take]; omega
  have htm : (l.take a ++ mid).length = b := by
    simp only [List.length_append]; omega
  refine ⟨?_, ?_, ?_, ?_⟩
  · rw [List.append_assoc, List.take_left' hta]
  · rw [List.drop_left' htm]
  · unfold slice
    rw [List.take_left' htm, List.drop_left' hta]
  · simp only [List.length_append, List.length_drop]
    omega

lemma partialSort_some (a b : ℕ) (r1 r2 : ℚ) (l : List Pixel) (h : 2 ≤ l.length) :
    partialSort a b r1 r2 l = some (pSortBody a b r1 r2 l) := by
  unfold partialSort
  rw [if_neg (by omega)]

lemma partialSort_short (a b : ℕ) (r1 r2 : ℚ) (l : List Pixel) (h : l.length < 2) :
    partialSort a b r1 r2 l = none := by
  unfold partialSort
  rw [if_pos h]

/-! ## C1: the four replacement cases of the partial sorter -/

/-- Claim C1: for a list of length `N >= 2`, with the draws
`a ∈ [0, N-2]`, `b ∈ [a+1, N-1]` of `randrange(len(ls) - 1)` and
`randrange(a + 1, len(ls))` (which are uniform by the semantics of the
random library), `partialSort` succeeds, preserves the length, and applies
exactly one of four replacements selected by the draws `r1` of
`probability(0.5)` and `r2` of the inner `probability(0.95)`: ascending
sort of the slice `[a, b)` when `r1 < 1/2` and `r2 < 95/100` (an event of
probability `0.5 * 0.95` under uniform independent draws), ascending sort
of the prefix `[0, b)` when `r1 < 1/2` and `r2 >= 95/100` (probability
`0.5 * 0.05`), reversed ascending sort of `[a, b)` when `r1 >= 1/2` and
`r2 < 95/100` (probability `0.5 * 0.95`), and reversed ascending sort of
the suffix `[a, N)` when `r1 >= 1/2` and `r2 >= 95/100` (probability
`0.5 * 0.05`).  Positions outside the replaced range are unchanged (equal
prefix before and suffix after the range), and `sortLex` sorts ascending
under the lexicographic (R, G, B) order and permutes its input. -/
theorem partialSort_four_cases (l : List Pixel) (a b : ℕ) (r1 r2 : ℚ)
    (hN : 2 ≤ l.length) (ha : a + 2 ≤ l.length) (hab : a + 1 ≤ b)
    (hbN : b + 1 ≤ l.length) :
    partialSort a b r1 r2 l = some (pSortBody a b r1 r2 l) ∧
    (pSortBody a b r1 r2 l).length = l.length ∧
    (∀ m : List Pixel, List.Sorted lexLe (sortLex m) ∧ List.Perm (sortLex m) m) ∧
    (r1 < 1/2 → r2 < 95/100 →
      (pSortBody a b r1 r2 l).take a = l.take a ∧
      (pSortBody a b r1 r2 l).drop b = l.drop b ∧
      slice (pSortBody a b r1 r2 l) a b = sortLex (slice l a b)) ∧
    (r1 < 1/2 → ¬(r2 < 95/100) →
      (pSortBody a b r1 r2 l).take b = sortLex (l.take b) ∧
      (pSortBody a b r1 r2 l).drop b = l.drop b) ∧
    (¬(r1 < 1/2) → r2 < 95/100 →
      (pSortBody a b r1 r2 l).take a = l.take a ∧
      (pSortBody a b r1 r2 l).drop b = l.drop b ∧
      slice (pSortBody a b r1 r2 l) a b = (sortLex (slice l a b)).reverse) ∧
    (¬(r1 < 1/2) → ¬(r2 < 95/100) →
      (pSortBody a b r1 r2 l).take a = l.take a ∧
      (pSortBody a b r1 r2 l).drop a = (sortLex (l.drop a)).reverse) := by
  have hab' : a ≤ b := by omega
  have hb' : b ≤ l.length := by omega
  have hslice : (sortLex (slice l a b)).length = b - a := by
    rw [sortLex_length, slice_length l a b hb']
  have hslicerev : ((sortLex (slice l a b)).reverse).length = b - a := by
    rw [List.length_reverse, hslice]
  refine ⟨partialSort_some a b r1 r2 l hN, ?_, fun m => ⟨sortLex_sorted m, sortLex_perm m⟩,
    ?_, ?_, ?_, ?_⟩
  · -- length preservation, by cases on the two Boolean draws
    by_cases h1 : r1 < 1/2 <;> by_cases h2 : r2 < 95/100 <;>
      simp only [pSortBody, probability, mkRat_1_2, mkRat_95_100, h1, h2,
        decide_True, decide_False, Bool.false_eq_true, if_true, if_false] <;>
      simp only [List.length_append, List.length_reverse, sortLex_length,
        slice_length l a b hb', List.length_take, List.length_drop] <;> omega
  · intro h1 h2
    have hbody : pSortBody a b r1 r2 l = l.take a ++ sortLex (slice l a b) ++ l.drop b := by
      simp only [pSortBody, probability, mkRat_1_2, mkRat_95_100, h1, h2,
        decide_True, if_true]
    rw [hbody]
    have h := replaceMid_spec l (sortLex (slice l a b)) a b hab' hb' hslice
    exact ⟨h.1, h.2.1, h.2.2.1⟩
  · intro h1 h2
    have hbody : pSortBody a b r1 r2 l = sortLex (l.take b) ++ l.drop b := by
      simp only [pSortBody, probability, mkRat_1_2, mkRat_95_100, h1, h2,
        decide_True, decide_False, Bool.false_eq_true, if_true, if_false]
    have htb : (sortLex (l.take b)).length = b := by
      rw [sortLex_length]; simp only [List.length_take]; omega
    rw [hbody]
    exact ⟨List.take_left' htb, List.drop_left' htb⟩
  · intro h1 h2
    have hbody : pSortBody a b r1 r2 l =
        l.take a ++ (sortLex (slice l a b)).reverse ++ l.drop b := by
      simp only [pSortBody, probability, mkRat_1_2, mkRat_95_100, h1, h2,
        decide_True, decide_False, Bool.false_eq_true, if_true, if_false]
    rw [hbody]
    have h := replaceMid_spec l ((sortLex (slice l a b)).reverse) a b hab' hb' hslicerev
    exact ⟨h.1, h.2.1, h.2.2.1⟩
  · intro h1 h2
    have hbody : pSortBody a b r1 r2 l = l.take a ++ (sortLex (l.drop a)).reverse := by
      simp only [pSortBody, probability, mkRat_1_2, mkRat_95_100, h1, h2,
        decide_True, decide_False, Bool.false_eq_true, if_true, if_false]
    have hta : (l.take a).length = a := by
      simp only [List.length_take]; omega
    rw [hbody]
    exact ⟨List.take_left' hta, List.drop_left' hta⟩

/-- Witness for C1 at a concrete input: length-3 list, `a = 0`, `b = 2`,
draws selecting the ascending-middle case. -/
theorem partialSort_four_cases_witness :
    (2 ≤ ([((3:ℕ),(0:ℕ),(0:ℕ)), (1,0,0), (2,0,0)] : List Pixel).length ∧
      0 + 2 ≤ ([((3:ℕ),(0:ℕ),(0:ℕ)), (1,0,0), (2,0,0)] : List Pixel).length ∧
      0 + 1 ≤ 2 ∧
      2 + 1 ≤ ([((3:ℕ),(0:ℕ),(0:ℕ)), (1,0,0), (2,0,0)] : List Pixel).length) ∧
    partialSort 0 2 0 0 [((3:ℕ),(0:ℕ),(0:ℕ)), (1,0,0), (2,0,0)] =
      some (pSortBody 0 2 0 0 [((3:ℕ),(0:ℕ),(0:ℕ)), (1,0,0), (2,0,0)]) :=
  ⟨by decide,
    (partialSort_four_cases [((3:ℕ),(0:ℕ),(0:ℕ)), (1,0,0), (2,0,0)] 0 2 0 0
      (by decide) (by decide) (by decide) (by decide)).1⟩

/-! ## C3: the partial sorter on lines shorter than 2 -/

/-- Counterexample to claim C3 as stated: on the length-1 list `[(1,2,3)]`,
`partialSort` does not return the input unchanged; it raises `ValueError`
(modelled by `none`), for any draws. -/
theorem partialSort_short_cex :
    partialSort 0 0 0 0 [((1:ℕ), (2:ℕ), (3:ℕ))] = none ∧
    ¬ partialSort 0 0 0 0 [((1:ℕ), (2:ℕ), (3:ℕ))] = some [((1:ℕ), (2:ℕ), (3:ℕ))] := by
  decide

/-- Claim C3 amended: for every Line of length < 2 the `partialSort`
function itself raises `ValueError` (`none`) — the draw of
`randrange(len(ls) - 1)` fails — and the no-op behaviour is provided by
the caller `pixSort`, whose `try`/`except` (`sortOrKeep`) leaves the Line
unchanged. -/
theorem partialSort_short_error_caller_noop (a b : ℕ) (r1 r2 : ℚ)
    (l : List Pixel) (h : l.length < 2) :
    partialSort a b r1 r2 l = none ∧ sortOrKeep a b r1 r2 l = l := by
  have hn := partialSort_short a b r1 r2 l h
  exact ⟨hn, by unfold sortOrKeep; rw [hn]; rfl⟩

/-- Witness for the amended C3 at the concrete length-1 input `[(9,9,9)]`. -/
theorem partialSort_short_error_caller_noop_witness :
    (([((9:ℕ), (9:ℕ), (9:ℕ))] : List Pixel).length < 2) ∧
    (partialSort 0 0 0 0 [((9:ℕ), (9:ℕ), (9:ℕ))] = none ∧
      sortOrKeep 0 0 0 0 [((9:ℕ), (9:ℕ), (9:ℕ))] = [((9:ℕ), (9:ℕ), (9:ℕ))]) :=
  ⟨by decide, partialSort_short_error_caller_noop 0 0 0 0 _ (by decide)⟩

/-! ## Write-back lemmas -/

lemma putpixel_none (im : Canvas) (xc yc : ℕ) (c : Pixel)
    (h : ¬(xc < im.width ∧ yc < im.height)) :
    putpixel im xc yc c = none := by
  unfold putpixel; rw [if_neg h]

/-- A successful `putpixel` leaves the dimensions unchanged, sets the
target coordinate and no other. -/
lemma putpixel_spec (im : Canvas) (xc yc : ℕ) (c : Pixel)
    (h : xc < im.width ∧ yc < im.height) :
    ∃ im2, putpixel im xc yc c = some im2 ∧ im2.width = im.width ∧
      im2.height = im.height ∧ im2.pix xc yc = c ∧
      ∀ a bc, ¬(a = xc ∧ bc = yc) → im2.pix a bc = im.pix a bc := by
  refine ⟨setPix im xc yc c, by unfold putpixel; rw [if_pos h], rfl, rfl, ?_, ?_⟩
  · show (if xc = xc ∧ yc = yc then c else im.pix xc yc) = c
    rw [if_pos ⟨rfl, rfl⟩]
  · intro a bc hne
    show (if a = xc ∧ bc = yc then c else im.pix a bc) = im.pix a bc
    rw [if_neg hne]

lemma writeBackAux_nil (y startW : ℕ) (offs : ℕ → ℕ) (im : Canvas) (x : ℕ) :
    writeBackAux y startW offs im x [] = im := rfl

lemma writeBackAux_cons_some (y startW : ℕ) (offs : ℕ → ℕ) (im im2 : Canvas)
    (x : ℕ) (c : Pixel) (rest : List Pixel)
    (he : putpixel im (y + offs x) (startW + x) c = some im2) :
    writeBackAux y startW offs im x (c :: rest) =
      writeBackAux y startW offs im2 (x + 1) rest := by
  conv_lhs => rw [writeBackAux]
  rw [he]

lemma writeBackAux_cons_none (y startW : ℕ) (offs : ℕ → ℕ) (im : Canvas)
    (x : ℕ) (c : Pixel) (rest : List Pixel)
    (he : putpixel im (y + offs x) (startW + x) c = none) :
    writeBackAux y startW offs im x (c :: rest) = im := by
  conv_lhs => rw [writeBackAux]
  rw [he]

lemma writeBackAux_dims (y startW : ℕ) (offs : ℕ → ℕ) :
    ∀ (line : List Pixel) (im : Canvas) (x : ℕ),
      (writeBackAux y startW offs im x line).width = im.width ∧
      (writeBackAux y startW offs im x line).height = im.height := by
  intro line
  induction line with
  | nil => intro im x; exact ⟨rfl, rfl⟩
  | cons c rest ih =>
    intro im x
    by_cases h : y + offs x < im.width ∧ startW + x < im.height
    · obtain ⟨im2, he, hw, hh, _, _⟩ := putpixel_spec im _ _ c h
      rw [writeBackAux_cons_some y startW offs im im2 x c rest he]
      refine ⟨?_, ?_⟩
      · rw [(ih im2 (x + 1)).1, hw]
      · rw [(ih im2 (x + 1)).2, hh]
    · rw [writeBackAux_cons_none y startW offs im x c rest
        (putpixel_none im _ _ c h)]
      exact ⟨rfl, rfl⟩

/-- Writes from index `x` onwards never touch a column left of
`startW + x`. -/
lemma writeBackAux_pix_left (y startW : ℕ) (offs : ℕ → ℕ) :
    ∀ (line : List Pixel) (im : Canvas) (x : ℕ) (a bc : ℕ), bc < startW + x →
      (writeBackAux y startW offs im x line).pix a bc = im.pix a bc := by
  intro line
  induction line with
  | nil => intro im x a bc _; rfl
  | cons c rest ih =>
    intro im x a bc hbc
    by_cases h : y + offs x < im.width ∧ startW + x < im.height
    · obtain ⟨im2, he, _, _, _, hother⟩ := putpixel_spec im _ _ c h
      rw [writeBackAux_cons_some y startW offs im im2 x c rest he]
      rw [ih im2 (x + 1) a bc (by omega)]
      exact hother a bc (by omega)
    · rw [writeBackAux_cons_none y startW offs im x c rest
        (putpixel_none im _ _ c h)]

lemma writeBackAux_lands (y startW : ℕ) (offs : ℕ → ℕ) :
    ∀ (line : List Pixel) (im : Canvas) (x : ℕ),
      (∀ j, j < line.length →
        y + offs (x + j) < im.width ∧ startW + (x + j) < im.height) →
      ∀ j, j < line.length →
        (writeBackAux y startW offs im x line).pix
            (y + offs (x + j)) (startW + (x + j)) = line.getD j (0, 0, 0) := by
  intro line
  induction line with
  | nil =>
    intro im x _ j hj
    simp only [List.length_nil] at hj
    omega
  | cons c rest ih =>
    intro im x hb j hj
    simp only [List.length_cons] at hb hj
    have h0 := hb 0 (by omega)
    rw [Nat.add_zero] at h0
    obtain ⟨im2, he, hw, hh, hpt, _⟩ := putpixel_spec im _ _ c h0
    rw [writeBackAux_cons_some y startW offs im im2 x c rest he]
    match j with
    | 0 =>
      simp only [Nat.add_zero]
      rw [writeBackAux_pix_left y startW offs rest im2 (x + 1) _ _ (by omega)]
      rw [hpt]
      rfl
    | j + 1 =>
      have hrec := ih im2 (x + 1)
        (fun j2 hj2 => by
          have hx2 : x + 1 + j2 = x + (j2 + 1) := by omega
          rw [hx2, hw, hh]
          exact hb (j2 + 1) (by omega))
        j (by omega)
      have hx : x + 1 + j = x + (j + 1) := by omega
      rw [hx] at hrec
      exact hrec

/-- If every write of the line is in bounds, pixel `j` of the line ends up
at coordinates `(y + offs j, startW + j)`. -/
lemma writeBack_lands (im : Canvas) (y startW : ℕ) (offs : ℕ → ℕ)
    (line : List Pixel)
    (hb : ∀ j, j < line.length → y + offs j < im.width ∧ startW + j < im.height) :
    ∀ j, j < line.length →
      (writeBack im y startW offs line).pix (y + offs j) (startW + j) =
        line.getD j (0, 0, 0) := by
  intro j hj
  have h := writeBackAux_lands y startW offs line im 0
    (fun j2 hj2 => by simpa using hb j2 hj2) j hj
  simpa using h

/-! ## C2: where the write-back loop puts the pixels -/

/-- Counterexample to claim C2 as stated: with dithering disabled (so no
write is ever "displaced"), the write-back loop still does not write at the
read row.  On a 2x1 canvas whose pixel `(1, 0)` is `(1, 0, 0)`, processing
row 0 with corruption probability 1 copies row 0's pixel onto row 1:
afterwards `(1, 0)` holds `(0, 0, 0)` (the value read at row 0) instead of
keeping its own value, and row 0 itself is untouched. -/
theorem writeBack_same_row_cex :
    (processRow ⟨0, 0, 0, 0, 0, 1, 0, fun _ => 1, fun _ => 1⟩ false 1
        ⟨2, 1, fun a _ => (a, 0, 0)⟩ 0 0 1).pix 1 0 = (0, 0, 0) ∧
    (processRow ⟨0, 0, 0, 0, 0, 1, 0, fun _ => 1, fun _ => 1⟩ false 1
        ⟨2, 1, fun a _ => (a, 0, 0)⟩ 0 0 1).pix 0 0 = (0, 0, 0) ∧
    ¬ (processRow ⟨0, 0, 0, 0, 0, 1, 0, fun _ => 1, fun _ => 1⟩ false 1
        ⟨2, 1, fun a _ => (a, 0, 0)⟩ 0 0 1).pix 1 0 = (1, 0, 0) := by
  have hg : probability (1:ℚ) 0 = true := by
    norm_num [probability]
  have hr : probability ((1:ℚ) * mkRat 75 100) 1 = false := by
    norm_num [probability, Rat.mkRat_eq_div]
  have key : processRow ⟨0, 0, 0, 0, 0, 1, 0, fun _ => 1, fun _ => 1⟩ false 1
      ⟨2, 1, fun a _ => (a, 0, 0)⟩ 0 0 1 =
      writeBack ⟨2, 1, fun a _ => (a, 0, 0)⟩ 0 0
        (fun x => writeOffset false 1 1)
        (sortOrKeep 0 0 0 0 (readLine ⟨2, 1, fun a _ => (a, 0, 0)⟩ 0 0 1)) := by
    simp only [processRow, hg, hr, if_true, Bool.false_eq_true, if_false]
  refine ⟨?_, ?_, ?_⟩ <;> rw [key] <;> decide

/-- Claim C2 amended: every pixel of the processed Line is written back at
row `y + offset` — one row PAST the row `y` it was read from when the
offset is the default 1 — in original column order (`startW + j` for index
`j`); the offset is 1 whenever dithering is disabled or the per-pixel 10%
draw fails, and is the `randrange(1, 3)` draw `delta ∈ {1, 2}` when
dithering is enabled and the 10% draw succeeds. -/
theorem writeBack_one_past_row (im : Canvas) (y startW : ℕ)
    (offs : ℕ → ℕ) (line : List Pixel)
    (hb : ∀ j, j < line.length → y + offs j < im.width ∧ startW + j < im.height) :
    (∀ t delta, writeOffset false t delta = 1) ∧
    (∀ dith t delta, ¬(t < 1/10) → writeOffset dith t delta = 1) ∧
    (∀ t delta, t < 1/10 → writeOffset true t delta = delta) ∧
    ∀ j, j < line.length →
      (writeBack im y startW offs line).pix (y + offs j) (startW + j) =
        line.getD j (0, 0, 0) := by
  refine ⟨?_, ?_, ?_, writeBack_lands im y startW offs line hb⟩
  · intro t delta
    simp [writeOffset]
  · intro dith t delta h
    have hf : probability (mkRat 1 10) t = false := by
      simp only [probability, mkRat_1_10, decide_eq_false_iff_not]
      exact h
    simp [writeOffset, hf]
  · intro t delta h
    have ht : probability (mkRat 1 10) t = true := by
      simp only [probability, mkRat_1_10, decide_eq_true_eq]
      exact h
    simp [writeOffset, ht]

/-- Witness for the amended C2: a single in-bounds pixel with the default
offset 1 lands one row past the read row. -/
theorem writeBack_one_past_row_witness :
    (0 + 1 < 2 ∧ 0 + 0 < 1) ∧
    (writeBack ⟨2, 1, fun _ _ => (0, 0, 0)⟩ 0 0 (fun _ => 1)
        [((5:ℕ), (5:ℕ), (5:ℕ))]).pix (0 + 1) (0 + 0) = (5, 5, 5) :=
  ⟨by decide,
    (writeBack_one_past_row ⟨2, 1, fun _ _ => (0, 0, 0)⟩ 0 0 (fun _ => 1)
      [((5:ℕ), (5:ℕ), (5:ℕ))]
      (by
        intro j hj
        simp only [List.length_cons, List.length_nil] at hj
        have hj0 : j = 0 := by omega
        subst hj0
        exact ⟨by decide, by decide⟩)).2.2.2
      0 (by decide)⟩

/-! ## C4: out-of-bounds writes truncate the rest of the line -/

/-- Counterexample to claim C4 as stated: on a 2x2 canvas, with dithering
displacing the first write out of bounds (offset 2) and the second write
in bounds (offset 1), the out-of-bounds first write `break`s the loop, so
the in-bounds second pixel `(2, 2, 2)` is NOT written: its target `(1, 1)`
keeps the background value. -/
theorem writeBack_truncation_cex :
    ((0:ℕ) + writeOffset true 0 2 ≥ 2) ∧
    (0 + writeOffset true 1 2 < 2 ∧ 0 + 1 < 2) ∧
    (writeBack ⟨2, 2, fun _ _ => (0, 0, 0)⟩ 0 0
        (fun x => writeOffset true (if x = 0 then 0 else 1) 2)
        [((1:ℕ), (1:ℕ), (1:ℕ)), (2, 2, 2)]).pix 1 1 = (0, 0, 0) ∧
    ¬ (writeBack ⟨2, 2, fun _ _ => (0, 0, 0)⟩ 0 0
        (fun x => writeOffset true (if x = 0 then 0 else 1) 2)
        [((1:ℕ), (1:ℕ), (1:ℕ)), (2, 2, 2)]).pix 1 1 = (2, 2, 2) := by
  decide

/-- Claim C4 amended: a pixel write whose coordinates fall outside the
Canvas is silently dropped, and it ends the write-back of the current Line:
the loop `break`s, so no later pixel of that Line is written (even one
whose coordinates would be inside the Canvas); the failure is still not
propagated beyond the Line — the already-written prefix stays and the
function returns normally. -/
theorem writeBack_break_on_oob (im : Canvas) (y startW : ℕ) (offs : ℕ → ℕ)
    (l1 : List Pixel) (c : Pixel) (l2 : List Pixel)
    (h1 : ∀ j, j < l1.length → y + offs j < im.width ∧ startW + j < im.height)
    (hc : ¬(y + offs l1.length < im.width ∧ startW + l1.length < im.height)) :
    writeBack im y startW offs (l1 ++ c :: l2) = writeBack im y startW offs l1 := by
  unfold writeBack
  suffices h : ∀ (l1 : List Pixel) (im : Canvas) (x : ℕ),
      (∀ j, j < l1.length →
        y + offs (x + j) < im.width ∧ startW + (x + j) < im.height) →
      ¬(y + offs (x + l1.length) < im.width ∧
        startW + (x + l1.length) < im.height) →
      writeBackAux y startW offs im x (l1 ++ c :: l2) =
        writeBackAux y startW offs im x l1 by
    apply h l1 im 0
    · intro j hj; simpa using h1 j hj
    · simpa using hc
  intro l1
  induction l1 with
  | nil =>
    intro im x _ hoob
    simp only [List.length_nil, Nat.add_zero] at hoob
    simp only [List.nil_append]
    rw [writeBackAux_cons_none y startW offs im x c l2 (putpixel_none im _ _ c hoob)]
    rfl
  | cons d rest ih =>
    intro im x hb hoob
    simp only [List.length_cons] at hb hoob
    have h0 := hb 0 (by omega)
    rw [Nat.add_zero] at h0
    obtain ⟨im2, he, hw, hh, _, _⟩ := putpixel_spec im _ _ d h0
    simp only [List.cons_append]
    rw [writeBackAux_cons_some y startW offs im im2 x d (rest ++ c :: l2) he,
      writeBackAux_cons_some y startW offs im im2 x d rest he]
    apply ih
    · intro j hj
      have hx2 : x + 1 + j = x + (j + 1) := by omega
      rw [hx2, hw, hh]
      exact hb (j + 1) (by omega)
    · have hlen : x + 1 + rest.length = x + (rest.length + 1) := by omega
      rw [hlen, hw, hh]
      exact hoob

/-- Witness for the amended C4: one in-bounds write, then an out-of-bounds
one; the tail behind the failing write is discarded. -/
theorem writeBack_break_on_oob_witness :
    ((0 + 1 < 2 ∧ 0 + 0 < 2) ∧ ¬((0:ℕ) + 5 < 2 ∧ (0:ℕ) + 1 < 2)) ∧
    writeBack ⟨2, 2, fun _ _ => (0, 0, 0)⟩ 0 0 (fun x => if x = 0 then 1 else 5)
        ([((1:ℕ), (1:ℕ), (1:ℕ))] ++ ((2:ℕ), (2:ℕ), (2:ℕ)) :: [(3, 3, 3)]) =
      writeBack ⟨2, 2, fun _ _ => (0, 0, 0)⟩ 0 0 (fun x => if x = 0 then 1 else 5)
        [((1:ℕ), (1:ℕ), (1:ℕ))] :=
  ⟨⟨by decide, by decide⟩,
    writeBack_break_on_oob ⟨2, 2, fun _ _ => (0, 0, 0)⟩ 0 0
      (fun x => if x = 0 then 1 else 5) [((1:ℕ), (1:ℕ), (1:ℕ))]
      ((2:ℕ), (2:ℕ), (2:ℕ)) [(3, 3, 3)]
      (by
        intro j hj
        simp only [List.length_cons, List.length_nil] at hj
        have hj0 : j = 0 := by omega
        subst hj0
        exact ⟨by decide, by decide⟩)
      (by decide)⟩

/-! ## C6: the engine survives a too-short line -/

/-- Claim C6: when the Line read by the engine is too short for the
sorter's bound selection (length < 2), the engine does not fail: the
sorter's `ValueError` is absorbed, the Line passes through unsorted, and
the remaining steps (channel restore with threshold `p * 0.75`, write-back)
run on the unmodified Line exactly as they would on a sorted one. -/
theorem engine_short_line_noop (d : RowDraws) (dither : Bool) (p : ℚ)
    (im : Canvas) (y startW endW : ℕ)
    (hgate : probability p d.gate = true)
    (hshort : (readLine im y startW endW).length < 2) :
    partialSort d.a d.b d.r1 d.r2 (readLine im y startW endW) = none ∧
    processRow d dither p im y startW endW =
      writeBack im y startW
        (fun x => writeOffset dither (d.ditherGate x) (d.delta x))
        (if probability (p * (75/100)) d.restoreGate then
          channelRestore d.colour (readLine im y startW endW)
            (readLine im y startW endW)
        else readLine im y startW endW) := by
  have hnone := partialSort_short d.a d.b d.r1 d.r2 _ hshort
  refine ⟨hnone, ?_⟩
  simp only [processRow, hgate, if_true]
  unfold sortOrKeep
  rw [hnone, mkRat_75_100]
  rfl

/-- Witness for C6 on a concrete 1x1 canvas (line length 1 < 2). -/
theorem engine_short_line_noop_witness :
    (probability 1 (⟨0, 0, 0, 0, 0, 1, 0, fun _ => 1, fun _ => 1⟩ : RowDraws).gate = true ∧
      (readLine ⟨1, 1, fun _ _ => (0, 0, 0)⟩ 0 0 1).length < 2) ∧
    (partialSort 0 0 0 0 (readLine ⟨1, 1, fun _ _ => (0, 0, 0)⟩ 0 0 1) = none ∧
      processRow ⟨0, 0, 0, 0, 0, 1, 0, fun _ => 1, fun _ => 1⟩ false 1
          ⟨1, 1, fun _ _ => (0, 0, 0)⟩ 0 0 1 =
        writeBack ⟨1, 1, fun _ _ => (0, 0, 0)⟩ 0 0
          (fun x => writeOffset false
            ((⟨0, 0, 0, 0, 0, 1, 0, fun _ => 1, fun _ => 1⟩ : RowDraws).ditherGate x)
            ((⟨0, 0, 0, 0, 0, 1, 0, fun _ => 1, fun _ => 1⟩ : RowDraws).delta x))
          (if probability (1 * (75/100))
              (⟨0, 0, 0, 0, 0, 1, 0, fun _ => 1, fun _ => 1⟩ : RowDraws).restoreGate then
            channelRestore 0 (readLine ⟨1, 1, fun _ _ => (0, 0, 0)⟩ 0 0 1)
              (readLine ⟨1, 1, fun _ _ => (0, 0, 0)⟩ 0 0 1)
          else readLine ⟨1, 1, fun _ _ => (0, 0, 0)⟩ 0 0 1)) :=
  ⟨⟨by decide, by decide⟩,
    engine_short_line_noop ⟨0, 0, 0, 0, 0, 1, 0, fun _ => 1, fun _ => 1⟩ false 1
      ⟨1, 1, fun _ _ => (0, 0, 0)⟩ 0 0 1 (by decide) (by decide)⟩

/-! ## C7: channel restore -/

lemma getD_map_range (f : ℕ → Pixel) (n i : ℕ) (h : i < n) (d : Pixel) :
    (((List.range n).map f).getD i d) = f i := by
  rw [List.getD_eq_getElem?_getD, List.getElem?_map, List.getElem?_range h]
  rfl

/-- Claim C7: the channel-restore step is gated by `probability(p * 0.75)`
(a draw below `0.75 * p` triggers it), the channel index is the
`randrange(3)` draw (hence in {0 = red, 1 = green, 2 = blue}, uniformly by
the random library), and for every pixel position of the Line, the
resulting pixel takes exactly the chosen channel's value from the original
(pre-sort) Line and exactly the other two channels' values from the sorted
Line. -/
theorem channelRestore_mixing (colour : ℕ) (orig line : List Pixel)
    (hc : colour < 3) (hlen : orig.length = line.length) :
    (∀ p r : ℚ, probability (p * (75/100)) r = true ↔ r < (75/100) * p) ∧
    (channelRestore colour orig line).length = line.length ∧
    ∀ i, i < line.length →
      ((colour = 0 → (channelRestore colour orig line).getD i (0, 0, 0) =
        ((orig.getD i (0, 0, 0)).1,
         (line.getD i (0, 0, 0)).2.1, (line.getD i (0, 0, 0)).2.2)) ∧
       (colour = 1 → (channelRestore colour orig line).getD i (0, 0, 0) =
        ((line.getD i (0, 0, 0)).1,
         (orig.getD i (0, 0, 0)).2.1, (line.getD i (0, 0, 0)).2.2)) ∧
       (colour = 2 → (channelRestore colour orig line).getD i (0, 0, 0) =
        ((line.getD i (0, 0, 0)).1,
         (line.getD i (0, 0, 0)).2.1, (orig.getD i (0, 0, 0)).2.2))) := by
  refine ⟨?_, ?_, ?_⟩
  · intro p r
    simp only [probability, decide_eq_true_eq]
    constructor <;> intro h <;> linarith
  · unfold channelRestore
    rw [List.length_map, List.length_range]
  · intro i hi
    have hgd : (channelRestore colour orig line).getD i (0, 0, 0) =
        ((if colour = 0 then (orig.getD i (0, 0, 0)).1
          else (line.getD i (0, 0, 0)).1),
         (if colour = 1 then (orig.getD i (0, 0, 0)).2.1
          else (line.getD i (0, 0, 0)).2.1),
         (if colour = 2 then (orig.getD i (0, 0, 0)).2.2
          else (line.getD i (0, 0, 0)).2.2)) := by
      unfold channelRestore
      exact getD_map_range _ line.length i hi (0, 0, 0)
    refine ⟨?_, ?_, ?_⟩ <;> intro hcv <;> subst hcv <;> rw [hgd] <;> norm_num

/-- Witness for C7: restore the red channel at position 0 of concrete
one-pixel lines. -/
theorem channelRestore_mixing_witness :
    ((0:ℕ) < 3 ∧ ([((1:ℕ), (2:ℕ), (3:ℕ))] : List Pixel).length =
      ([((4:ℕ), (5:ℕ), (6:ℕ))] : List Pixel).length) ∧
    (channelRestore 0 [((1:ℕ), (2:ℕ), (3:ℕ))] [((4:ℕ), (5:ℕ), (6:ℕ))]).getD 0 (0, 0, 0) =
      (1, 5, 6) :=
  ⟨⟨by decide, by decide⟩,
    ((channelRestore_mixing 0 [((1:ℕ), (2:ℕ), (3:ℕ))] [((4:ℕ), (5:ℕ), (6:ℕ))]
      (by decide) (by decide)).2.2 0 (by decide)).1 rfl⟩

/-! ## C5: tiling coverage -/

/-- With a positive stride and enough fuel, the fuel-based loop model
generates exactly the arithmetic progression of positions that satisfy the
loop condition. -/
lemma tilePositions_mem (s dB M : ℕ) (hs : 1 ≤ s) :
    ∀ (fuel start : ℕ), 2 * M < start + fuel →
      ∀ x, x ∈ tilePositions s dB M fuel start ↔
        ∃ k, x = start + k * s ∧ 3 * x + 2 * dB ≤ 6 * M := by
  intro fuel
  induction fuel with
  | zero =>
    intro start hf x
    simp only [tilePositions, List.not_mem_nil, false_iff]
    rintro ⟨k, rfl, hc⟩
    have hks : 0 ≤ k * s := Nat.zero_le _
    omega
  | succ fuel ih =>
    intro start hf x
    by_cases hcond : tileCond start dB M
    · have hcond2 : 3 * start + 2 * dB ≤ 6 * M := by
        simpa [tileCond] using hcond
      simp only [tilePositions, hcond, if_true, List.mem_cons]
      rw [ih (start + s) (by omega) x]
      constructor
      · rintro (rfl | ⟨k, rfl, hc⟩)
        · exact ⟨0, by omega, hcond2⟩
        · exact ⟨k + 1, by ring, hc⟩
      · rintro ⟨k, rfl, hc⟩
        match k with
        | 0 => left; omega
        | k + 1 => right; exact ⟨k, by ring, hc⟩
    · have hcond2 : ¬ (3 * start + 2 * dB ≤ 6 * M) := by
        simpa [tileCond] using hcond
      rw [Bool.not_eq_true] at hcond
      simp only [tilePositions, hcond, Bool.false_eq_true, if_false,
        List.not_mem_nil, false_iff]
      rintro ⟨k, rfl, hc⟩
      have hks : 0 ≤ k * s := Nat.zero_le _
      omega

/-- Covering lemma for one axis: every `t` below the guaranteed reach of
the progression lies inside some visited block interval. -/
lemma tile_cover_axis (s dB M t : ℕ) (hs1 : 1 ≤ s) (hs2 : 3 * s ≤ 2 * dB)
    (hdBM : dB ≤ M) (ht : 3 * t + dB + 2 ≤ 6 * M) :
    ∃ k, k * s ≤ t ∧ t < k * s + dB ∧ 3 * (k * s) + 2 * dB ≤ 6 * M := by
  have hsd : s ≤ dB := by omega
  set K := (6 * M - 2 * dB) / (3 * s) with hK
  have h3s : 0 < 3 * s := by omega
  have hdm1 := Nat.div_add_mod (6 * M - 2 * dB) (3 * s)
  have hmod1 := Nat.mod_lt (6 * M - 2 * dB) h3s
  have hKmul : 3 * s * K = 3 * (K * s) := by ring
  rw [hKmul] at hdm1
  have hdm2 : t / s * s + t % s = t := by
    rw [Nat.mul_comm]
    exact Nat.div_add_mod t s
  have hmod2 := Nat.mod_lt t (show 0 < s by omega)
  have hts : t / s * s ≤ t := Nat.div_mul_le_self t s
  by_cases hcmp : t / s ≤ K
  · refine ⟨t / s, ?_, ?_, ?_⟩
    · exact hts
    · omega
    · have hmono : t / s * s ≤ K * s := Nat.mul_le_mul_right s hcmp
      omega
  · refine ⟨K, ?_, ?_, ?_⟩
    · have hmono : (K + 1) * s ≤ t / s * s :=
        Nat.mul_le_mul_right s (by omega)
      have hexp : (K + 1) * s = K * s + s := by ring
      omega
    · omega
    · omega

/-- Counterexample to claim C5 as stated: with `blockCount = 1` on a 3x3
image (block dimensions 3 >= 1, as §3 requires), the padded canvas is 9x9
(`border 3` on each side), but the tiling loops only visit positions 0 and
3 on each axis, so the union of the blocks is `[0, 6) x [0, 6)`: the
padded-canvas pixel `(8, 8)` is covered by no block. -/
theorem tiling_coverage_cex :
    (1 ≤ 1 ∧ 8 < 3 + 2 * borderOf 3 3 1 ∧ 8 < 3 + 2 * borderOf 3 3 1) ∧
    ¬ coveredBy 1 3 3 8 8 := by
  constructor
  · exact ⟨le_refl 1, by decide, by decide⟩
  · decide

/-- Claim C5 amended: full coverage of the padded canvas fails in general
(see the counterexample), but for `blockCount ≥ 2` with both block
dimensions at least 2 (so both strides are at least 1), the union of the
generated block rectangles covers every pixel `(r, c)` with
`r < border + H` and `c < border + W` — in particular the whole footprint
of the original image inside the padded canvas; the padded canvas proper
may additionally miss up to a stride's worth of trailing rows/columns. -/
theorem tiling_covers_footprint (blocks W H r c : ℕ) (hb : 2 ≤ blocks)
    (hwB : 2 ≤ W / blocks) (hhB : 2 ≤ H / blocks)
    (hr : r < borderOf W H blocks + H) (hc : c < borderOf W H blocks + W) :
    coveredBy blocks W H r c := by
  set M := max W H with hM
  have hWM : W ≤ M := le_max_left W H
  have hHM : H ≤ M := le_max_right W H
  have hWb2 : W / blocks ≤ W / 2 := Nat.div_le_div_left hb (by omega)
  have hHb2 : H / blocks ≤ H / 2 := Nat.div_le_div_left hb (by omega)
  have hW2M : W / 2 ≤ M / 2 := Nat.div_le_div_right hWM
  have hH2M : H / 2 ≤ M / 2 := Nat.div_le_div_right hHM
  have hBle : borderOf W H blocks ≤ M / 2 :=
    max_le (le_trans hWb2 hW2M) (le_trans hHb2 hH2M)
  have hM2 : 2 * (M / 2) ≤ M := by omega
  -- the strides taken by the loops (blocks > 1)
  have hsH : stride blocks (H / blocks) = (H / blocks) * 2 / 3 := by
    unfold stride
    rw [if_pos (by omega)]
  have hsW : stride blocks (W / blocks) = (W / blocks) * 2 / 3 := by
    unfold stride
    rw [if_pos (by omega)]
  have hstride3 : ∀ dB : ℕ, 3 * (dB * 2 / 3) ≤ 2 * dB := by
    intro dB
    have := Nat.div_mul_le_self (dB * 2) 3
    omega
  have hstride1 : ∀ dB : ℕ, 2 ≤ dB → 1 ≤ dB * 2 / 3 := by
    intro dB h2
    have : 3 * 1 ≤ dB * 2 := by omega
    omega
  -- vertical axis: positions strided by the hBlock stride must reach r
  obtain ⟨kh, hkh1, hkh2, hkh3⟩ :=
    tile_cover_axis ((H / blocks) * 2 / 3) (H / blocks) M r
      (hstride1 _ hhB) (hstride3 _)
      (le_trans (Nat.div_le_self H blocks) hHM)
      (by
        have hdB : H / blocks ≤ M / 2 := le_trans hHb2 hH2M
        have hB2 : borderOf W H blocks ≤ M / 2 := hBle
        omega)
  -- horizontal axis
  obtain ⟨kw, hkw1, hkw2, hkw3⟩ :=
    tile_cover_axis ((W / blocks) * 2 / 3) (W / blocks) M c
      (hstride1 _ hwB) (hstride3 _)
      (le_trans (Nat.div_le_self W blocks) hWM)
      (by
        have hdB : W / blocks ≤ M / 2 := le_trans hWb2 hW2M
        have hB2 : borderOf W H blocks ≤ M / 2 := hBle
        omega)
  refine ⟨kh * ((H / blocks) * 2 / 3), ?_, kw * ((W / blocks) * 2 / 3), ?_, ?_, ?_, ?_, ?_⟩
  · unfold rowStarts
    rw [hsH]
    rw [tilePositions_mem _ _ _ (hstride1 _ hhB) (2 * M + 1) 0 (by omega)]
    exact ⟨kh, by omega, hkh3⟩
  · unfold colStarts
    rw [hsW]
    rw [tilePositions_mem _ _ _ (hstride1 _ hwB) (2 * M + 1) 0 (by omega)]
    exact ⟨kw, by omega, hkw3⟩
  · exact hkh1
  · exact hkh2
  · exact hkw1
  · exact hkw2

/-- Witness for the amended C5: 8x8 image, 2 blocks (block dims 4), the
far footprint corner `(11, 11)` is covered. -/
theorem tiling_covers_footprint_witness :
    (2 ≤ 2 ∧ 2 ≤ 8 / 2 ∧ 2 ≤ 8 / 2 ∧ 11 < borderOf 8 8 2 + 8 ∧
      11 < borderOf 8 8 2 + 8) ∧
    coveredBy 2 8 8 11 11 :=
  ⟨⟨by decide, by decide, by decide, by decide, by decide⟩,
    tiling_covers_footprint 2 8 8 11 11 (by decide) (by decide) (by decide)
      (by decide) (by decide)⟩

/-! ## C8: per-block corruption probability -/

/-- Claim C8: the exponent `k` is drawn from the integer range
`[blocks - 4 + intensity, blocks - 1 + intensity)` (exclusive upper bound),
which is non-empty — indeed of size exactly 3 — for every `blocks` and
every `intensity`, clamped or not; and the corruption probability passed to
`pixSort` for a drawn `k` is `glitchP blocks k
= 1 - (blocks^2 / (blocks + 1)^2) ^ k`. -/
theorem kRange_nonempty_formula (blocks intensity : ℤ) :
    (kRange blocks intensity).Nonempty ∧
    (kRange blocks intensity).card = 3 ∧
    ∀ k ∈ kRange blocks intensity,
      glitchP blocks k = 1 - (((blocks : ℚ) ^ 2) / (((blocks : ℚ) + 1) ^ 2)) ^ k := by
  refine ⟨?_, ?_, ?_⟩
  · rw [kRange, Finset.nonempty_Ico]
    omega
  · rw [kRange, Int.card_Ico]
    have h3 : blocks - 1 + intensity - (blocks - 4 + intensity) = 3 := by ring
    rw [h3]
    rfl
  · intro k _
    rfl

/-- Witness for C8 at the script's default `blocks = 9`, `intensity = 0`,
with the drawn exponent `k = 6` (a member of `[5, 8)`). -/
theorem kRange_nonempty_formula_witness :
    ((6:ℤ) ∈ kRange 9 0) ∧
    ((kRange 9 0).Nonempty ∧ (kRange 9 0).card = 3 ∧
      glitchP 9 6 = 1 - (((9 : ℚ) ^ 2) / (((9 : ℚ) + 1) ^ 2)) ^ (6:ℤ)) :=
  ⟨by rw [kRange, Finset.mem_Ico]; omega,
    ⟨(kRange_nonempty_formula 9 0).1, (kRange_nonempty_formula 9 0).2.1,
      (kRange_nonempty_formula 9 0).2.2 6 (by rw [kRange, Finset.mem_Ico]; omega)⟩⟩

/-! ## C9: round-trip geometry at rotation 0 -/

lemma foldl_dims {α : Type} (f : Canvas → α → Canvas) (l : List α)
    (hf : ∀ c a, (f c a).width = c.width ∧ (f c a).height = c.height) :
    ∀ im : Canvas, (l.foldl f im).width = im.width ∧
      (l.foldl f im).height = im.height := by
  induction l with
  | nil => intro im; exact ⟨rfl, rfl⟩
  | cons a rest ih =>
    intro im
    rw [List.foldl_cons]
    refine ⟨?_, ?_⟩
    · rw [(ih (f im a)).1, (hf im a).1]
    · rw [(ih (f im a)).2, (hf im a).2]

lemma processRow_dims (d : RowDraws) (dither : Bool) (p : ℚ) (im : Canvas)
    (y startW endW : ℕ) :
    (processRow d dither p im y startW endW).width = im.width ∧
    (processRow d dither p im y startW endW).height = im.height := by
  unfold processRow
  by_cases h : probability p d.gate
  · rw [if_pos h]
    exact writeBackAux_dims y startW _ _ im 0
  · rw [if_neg h]
    exact ⟨rfl, rfl⟩

lemma pixSort_dims (d : ℕ → RowDraws) (dither : Bool) (image : Canvas)
    (startW startH endW endH : ℕ) (p : ℚ) :
    (pixSort d dither image startW startH endW endH p).width = image.width ∧
    (pixSort d dither image startW startH endW endH p).height = image.height := by
  unfold pixSort
  exact foldl_dims _ _ (fun c a => processRow_dims (d a) dither p c a startW endW) image

lemma glitch0_dims (ds : ℕ → ℕ → ℕ → RowDraws) (ks : ℕ → ℕ → ℤ) (dither : Bool)
    (blocks W H : ℕ) (im : Canvas) :
    (glitch0 ds ks dither blocks W H im).width = im.width + 2 * borderOf W H blocks ∧
    (glitch0 ds ks dither blocks W H im).height = im.height + 2 * borderOf W H blocks := by
  unfold glitch0
  have houter := foldl_dims
    (fun acc ch =>
      (colStarts blocks W H).foldl
        (fun acc2 cw =>
          pixSort (ds ch cw) dither acc2 ch cw (ch + H / blocks) (cw + W / blocks)
            (glitchP (blocks : ℤ) (ks ch cw)))
        acc)
    (rowStarts blocks W H)
    (fun c a =>
      foldl_dims _ _ (fun c2 a2 => pixSort_dims (ds a a2) dither c2 a a2 _ _ _) c)
    (expand im (borderOf W H blocks))
  exact houter

/-- Claim C9: for rotation angle 0 with fuzzy edges disabled, one full
glitch pass — black-border padding of width `max(wBlock, hBlock)`, the
tiling loops (which write pixels but never resize the canvas), then the
centered crop of `main` — produces an output canvas whose width and height
are exactly the original image's width and height. -/
theorem glitch0_roundtrip_dims (ds : ℕ → ℕ → ℕ → RowDraws) (ks : ℕ → ℕ → ℤ)
    (dither : Bool) (blocks W H : ℕ) (im : Canvas)
    (hblocks : 1 ≤ blocks) (hw : im.width = W) (hh : im.height = H) :
    (mainCrop (glitch0 ds ks dither blocks W H im) W H).width = W ∧
    (mainCrop (glitch0 ds ks dither blocks W H im) W H).height = H := by
  obtain ⟨h1, h2⟩ := glitch0_dims ds ks dither blocks W H im
  rw [hw] at h1
  rw [hh] at h2
  unfold mainCrop crop
  simp only
  rw [h1, h2]
  omega

/-- Witness for C9 on a concrete 2x2 canvas with 1 block. -/
theorem glitch0_roundtrip_dims_witness :
    (1 ≤ 1 ∧ (⟨2, 2, fun _ _ => (0, 0, 0)⟩ : Canvas).width = 2 ∧
      (⟨2, 2, fun _ _ => (0, 0, 0)⟩ : Canvas).height = 2) ∧
    ((mainCrop (glitch0 (fun _ _ _ => ⟨1, 0, 0, 0, 0, 1, 0, fun _ => 1, fun _ => 1⟩)
        (fun _ _ => 0) false 1 2 2 ⟨2, 2, fun _ _ => (0, 0, 0)⟩) 2 2).width = 2 ∧
      (mainCrop (glitch0 (fun _ _ _ => ⟨1, 0, 0, 0, 0, 1, 0, fun _ => 1, fun _ => 1⟩)
        (fun _ _ => 0) false 1 2 2 ⟨2, 2, fun _ _ => (0, 0, 0)⟩) 2 2).height = 2) :=
  ⟨⟨by decide, rfl, rfl⟩,
    glitch0_roundtrip_dims (fun _ _ _ => ⟨1, 0, 0, 0, 0, 1, 0, fun _ => 1, fun _ => 1⟩)
      (fun _ _ => 0) false 1 2 2 ⟨2, 2, fun _ _ => (0, 0, 0)⟩ (by decide) rfl rfl⟩

/-! ## C10: termination of the tiling loops -/

/-- Claim C10: a tiling loop terminates exactly when its stride is
positive, so the nested loops terminate iff both per-axis strides are at
least 1: with `blockCount = 1` the stride equals the block dimension (so
any dimension >= 1 terminates), and with `blockCount > 1` the stride is
`floor(dim * 2/3)`, which is at least 1 whenever `dim >= 2`; but when
`blockCount > 1` and a block dimension `floor(IMAGE_DIM / blockCount)`
equals 1, the stride is `floor(2/3) = 0` and that loop never terminates —
the spec's guard "block dimension >= 1" is not a sufficient termination
precondition.  (`dB <= 3 * M` always holds in `glitch`, where `dB` is a
block dimension and `M` the larger original dimension.) -/
theorem tiling_termination (s_w s_h wB hB M : ℕ) :
    (wB ≤ 3 * M → hB ≤ 3 * M →
      ((loopTerminates s_h hB M ∧ loopTerminates s_w wB M) ↔ (1 ≤ s_h ∧ 1 ≤ s_w))) ∧
    (∀ dB, stride 1 dB = dB) ∧
    (∀ blocks dB, 1 < blocks → 2 ≤ dB → 1 ≤ stride blocks dB) ∧
    (∀ blocks dim, 1 < blocks → 1 ≤ M → dim / blocks = 1 →
      stride blocks (dim / blocks) = 0 ∧
      ¬ loopTerminates (stride blocks (dim / blocks)) (dim / blocks) M) := by
  have hiff : ∀ s dB : ℕ, dB ≤ 3 * M → (loopTerminates s dB M ↔ 1 ≤ s) := by
    intro s dB hdB
    constructor
    · intro hterm
      by_contra hs
      have hs0 : s = 0 := by omega
      obtain ⟨k, hk⟩ := hterm
      rw [hs0, Nat.mul_zero] at hk
      have : tileCond 0 dB M = true := by
        simp only [tileCond, decide_eq_true_eq]
        omega
      rw [this] at hk
      cases hk
    · intro hs
      refine ⟨2 * M + 1, ?_⟩
      simp only [tileCond, decide_eq_false_iff_not]
      have : 2 * M + 1 ≤ (2 * M + 1) * s := Nat.le_mul_of_pos_right _ (by omega)
      omega
  refine ⟨?_, ?_, ?_, ?_⟩
  · intro hwB hhB
    rw [hiff s_h hB hhB, hiff s_w wB hwB]
  · intro dB
    unfold stride
    rw [if_neg (by omega)]
  · intro blocks dB hb h2
    unfold stride
    rw [if_pos hb]
    have : 3 * 1 ≤ dB * 2 := by omega
    omega
  · intro blocks dim hb hM hdim
    have hstr : stride blocks (dim / blocks) = 0 := by
      unfold stride
      rw [if_pos hb, hdim]
    refine ⟨hstr, ?_⟩
    rw [hstr, hdim]
    intro hterm
    obtain ⟨k, hk⟩ := hterm
    rw [Nat.mul_zero] at hk
    have : tileCond 0 1 M = true := by
      simp only [tileCond, decide_eq_true_eq]
      omega
    rw [this] at hk
    cases hk

/-- Witness for C10: strides for 3x3 blocks of dimension 3 terminate;
blocks = 2 with dimension 2 (block dim 1) gives stride 0 and
non-termination. -/
theorem tiling_termination_witness :
    ((3 ≤ 3 * 5 ∧ 3 ≤ 3 * 5) ∧ (1 < 2 ∧ 2 ≤ 3) ∧ (1 < 2 ∧ 1 ≤ 5 ∧ 2 / 2 = 1)) ∧
    (((loopTerminates 2 3 5 ∧ loopTerminates 2 3 5) ↔ (1 ≤ 2 ∧ 1 ≤ 2)) ∧
      stride 1 7 = 7 ∧ 1 ≤ stride 2 3 ∧
      (stride 2 (2 / 2) = 0 ∧ ¬ loopTerminates (stride 2 (2 / 2)) (2 / 2) 5)) :=
  ⟨⟨⟨by decide, by decide⟩, ⟨by decide, by decide⟩, ⟨by decide, by decide, by decide⟩⟩,
    ⟨(tiling_termination 2 2 3 3 5).1 (by decide) (by decide),
      (tiling_termination 2 2 3 3 5).2.1 7,
      (tiling_termination 2 2 3 3 5).2.2.1 2 3 (by decide) (by decide),
      (tiling_termination 2 2 3 3 5).2.2.2 2 2 (by decide) (by decide) (by decide)⟩⟩

end PrismSort
